import Mathlib

/-!
# go-comm-server: framed connection and view layer

A shallow embedding of `common/client.go` (the `Client` wrapper around a
`net.Conn`) and of the formatters and view geometry of `ui.go`.

Go strings are sequences of bytes and are embedded as such (`Str`); `bytes`
gives the UTF-8 bytes of a string literal.  The pieces of the Go standard
library the sources call (`strings.Trim`, `strings.HasPrefix`,
`strings.HasSuffix`, `bufio.Reader.ReadString`, `fmt.Sprintf`) are embedded
next to the code that uses them, following the library sources
(`fmt/print.go` as of Go 1.20 to 1.22 for the verb scanner `doPrintf`; see
`Sprintf_samples` for its answers at the edges of a verb).
-/

namespace GoComm

/-- A Go string: a sequence of bytes. -/
abbrev Str := List UInt8

/-- The bytes of a string literal (its UTF-8 encoding). -/
def bytes (s : String) : Str := (s.toList.map String.utf8EncodeChar).flatten

/-! ## package strings -/

/-- Go `strings.TrimRight(s, cutset)` for a cutset of ASCII bytes: drop every
trailing byte that is in `cutset`. -/
def TrimRight (s cutset : Str) : Str := s.rdropWhile (fun c => decide (c ∈ cutset))

/-- Go `strings.TrimLeft(s, cutset)` for a cutset of ASCII bytes: drop every
leading byte that is in `cutset`. -/
def TrimLeft (s cutset : Str) : Str := s.dropWhile (fun c => decide (c ∈ cutset))

/-- Go `strings.Trim(s, cutset)` for a cutset of ASCII bytes: trimmed on the
right, then on the left. -/
def Trim (s cutset : Str) : Str := TrimLeft (TrimRight s cutset) cutset

/-- Go `strings.HasPrefix(s, p)`. -/
def HasPrefix (s p : Str) : Bool := p.isPrefixOf s

/-- Go `strings.HasSuffix(s, p)`. -/
def HasSuffix (s p : Str) : Bool := p.isSuffixOf s

/-! ## package fmt -/

/-- The flags of `fmt/format.go` (`fmtFlags` together with `wid` and `prec`). -/
structure fmtFlags where
  widPresent : Bool := false
  precPresent : Bool := false
  minus : Bool := false
  plus : Bool := false
  sharp : Bool := false
  space : Bool := false
  zero : Bool := false
  plusV : Bool := false
  sharpV : Bool := false
  wid : Int := 0
  prec : Int := 0
deriving DecidableEq

/-- An operand handed to `Sprintf` through its variadic parameter.  The verb scanner
looks at an operand in four ways only, and the embedding keeps exactly those:
whether it is the nil interface, the name of its dynamic type
(`reflect.TypeOf(arg).String()`), its value when it is of an integer kind that
fits an `int` (for `*` widths), and the text `printArg` appends for it under
given flags and verb (a rune). -/
structure Arg where
  isNil : Bool
  typeString : Str
  intValue : Option Int
  print : fmtFlags → Char → Str

/-- Go `utf8.RuneError`. -/
def RuneError : Char := Char.ofNat 0xFFFD

/-- Go `utf8.DecodeRuneInString(s)`: the first rune of `s` and its width in
bytes; `RuneError` with width 1 for an encoding that is not valid. -/
def DecodeRuneInString (s : Str) : Char × Nat :=
  match s with
  | [] => (RuneError, 0)
  | s0 :: t =>
    let x0 := s0.toNat
    if x0 < 0x80 then (Char.ofNat x0, 1)
    else if x0 < 0xC2 ∨ 0xF4 < x0 then (RuneError, 1)
    else
      let sz : Nat := if x0 < 0xE0 then 2 else if x0 < 0xF0 then 3 else 4
      let lo : Nat := if x0 = 0xE0 then 0xA0 else if x0 = 0xF0 then 0x90 else 0x80
      let hi : Nat := if x0 = 0xED then 0x9F else if x0 = 0xF4 then 0x8F else 0xBF
      if s.length < sz then (RuneError, 1)
      else
        match t with
        | [] => (RuneError, 1)
        | s1 :: t1 =>
          let x1 := s1.toNat
          if x1 < lo ∨ hi < x1 then (RuneError, 1)
          else if sz ≤ 2 then (Char.ofNat (x0 % 0x20 * 0x40 + x1 % 0x40), 2)
          else
            match t1 with
            | [] => (RuneError, 1)
            | s2 :: t2 =>
              let x2 := s2.toNat
              if x2 < 0x80 ∨ 0xBF < x2 then (RuneError, 1)
              else if sz ≤ 3 then
                (Char.ofNat (x0 % 0x10 * 0x1000 + x1 % 0x40 * 0x40 + x2 % 0x40), 3)
              else
                match t2 with
                | [] => (RuneError, 1)
                | s3 :: _ =>
                  let x3 := s3.toNat
                  if x3 < 0x80 ∨ 0xBF < x3 then (RuneError, 1)
                  else
                    (Char.ofNat (x0 % 0x08 * 0x40000 + x1 % 0x40 * 0x1000 + x2 % 0x40 * 0x40
                      + x3 % 0x40), 4)

/-- Go `buf.writeRune(r)`: the UTF-8 bytes of the rune. -/
def writeRune (r : Char) : Str := String.utf8EncodeChar r

def commaSpaceString : Str := bytes ", "
def nilAngleString : Str := bytes "<nil>"
def percentBangString : Str := bytes "%!"
def missingString : Str := bytes "(MISSING)"
def badIndexString : Str := bytes "(BADINDEX)"
def extraString : Str := bytes "%!(EXTRA "
def badWidthString : Str := bytes "%!(BADWIDTH)"
def badPrecString : Str := bytes "%!(BADPREC)"
def noVerbString : Str := bytes "%!(NOVERB)"

/-- Go `tooLarge`: is the magnitude too large for a width or precision. -/
def tooLarge (x : Int) : Bool := decide (x > 1000000 ∨ x < -1000000)

/-- The loop of `parsenum`: `num`, `isnum` so far, and the bytes still to read. -/
def parsenumLoop (num : Int) (isnum : Bool) : Str → Int × Bool × Str
  | [] => (num, isnum, [])
  | c :: cs =>
    if '0'.toUInt8 ≤ c ∧ c ≤ '9'.toUInt8 then
      if tooLarge num then (0, false, [])
      else parsenumLoop (num * 10 + ((c.toNat - '0'.toNat : Nat) : Int)) true cs
    else (num, isnum, c :: cs)

/-- Go `parsenum(s, start, end)` on `s[start:end]`: the number read, whether one
was present, and the bytes after it (all of them are consumed on overflow). -/
def parsenum (s : Str) : Int × Bool × Str := parsenumLoop 0 false s

/-- Go `intFromArg(a, argNum)`: `num`, `isInt`, `newArgNum`. -/
def intFromArg (a : List Arg) (argNum : Nat) : Int × Bool × Nat :=
  match a.get? argNum with
  | none => (0, false, argNum)
  | some arg =>
    let r : Int × Bool :=
      match arg.intValue with
      | some n => (n, true)
      | none => (0, false)
    if tooLarge r.1 then (0, false, argNum + 1) else (r.1, r.2, argNum + 1)

/-- Go `parseArgNumber(format)`, `format[0]` being the opening bracket: the
index, the format after the consumed bytes, and whether the number parsed. -/
def parseArgNumber (format : Str) : Int × Str × Bool :=
  if format.length < 3 then (0, format.drop 1, false)
  else
    let body := format.drop 1
    let inner := body.takeWhile (fun c => c ≠ ']'.toUInt8)
    if inner.length = body.length then (0, format.drop 1, false)
    else
      let after := body.drop (inner.length + 1)
      let r := parsenum inner
      if !r.2.1 || !r.2.2.isEmpty then (0, after, false) else (r.1 - 1, after, true)

/-- The printer state while one verb is processed: the fields of Go `pp` that
`doPrintf` uses, with its loop variables `argNum`, `afterIndex` and `format[i:]`. -/
structure pp where
  buf : Str
  fmt : fmtFlags
  reordered : Bool
  goodArgNum : Bool
  argNum : Nat
  afterIndex : Bool
  format : Str

/-- Go `argNum, i, afterIndex = p.argNumber(argNum, format, i, len(a))`. -/
def pp.argNumber (p : pp) (numArgs : Nat) : pp :=
  match p.format with
  | [] => { p with afterIndex := false }
  | c :: _ =>
    if c = '['.toUInt8 then
      let r := parseArgNumber p.format
      if r.2.2 ∧ 0 ≤ r.1 ∧ r.1 < numArgs then
        { p with reordered := true, argNum := r.1.toNat, format := r.2.1, afterIndex := true }
      else
        { p with reordered := true, goodArgNum := false, format := r.2.1, afterIndex := r.2.2 }
    else { p with afterIndex := false }

/-- The flag loop of `doPrintf` (label `simpleFormat`), up to the first byte
that is not a flag.  As in Go up to 1.22, `0` sets `zero` only when `minus` is
not set, and `-` clears `zero`. -/
def scanFlags (f : fmtFlags) : Str → fmtFlags × Str
  | [] => (f, [])
  | c :: cs =>
    if c = '#'.toUInt8 then scanFlags { f with sharp := true } cs
    else if c = '0'.toUInt8 then scanFlags { f with zero := !f.minus } cs
    else if c = '+'.toUInt8 then scanFlags { f with plus := true } cs
    else if c = '-'.toUInt8 then scanFlags { f with minus := true, zero := false } cs
    else if c = ' '.toUInt8 then scanFlags { f with space := true } cs
    else (f, c :: cs)

/-- The adjustment `doPrintf` makes to the flags for the verbs `v` and `w`. -/
def vFlags (f : fmtFlags) (verb : Char) : fmtFlags :=
  if verb = 'v' ∨ verb = 'w' then
    { f with sharpV := f.sharp, sharp := false, plusV := f.plus, plus := false }
  else f

/-- The width part of a verb ("Do we have width?"). -/
def pp.width (p : pp) (a : List Arg) : pp :=
  let plain : pp :=
    let r := parsenum p.format
    { p with
      fmt := { p.fmt with wid := r.1, widPresent := r.2.1 }
      format := r.2.2
      goodArgNum := if p.afterIndex ∧ r.2.1 then false else p.goodArgNum }
  match p.format with
  | [] => plain
  | c :: cs =>
    if c = '*'.toUInt8 then
      let r := intFromArg a p.argNum
      let buf := if r.2.1 then p.buf else p.buf ++ badWidthString
      let f : fmtFlags := { p.fmt with wid := r.1, widPresent := r.2.1 }
      let f : fmtFlags := if f.wid < 0 then { f with wid := -f.wid, minus := true, zero := false } else f
      { p with buf := buf, fmt := f, argNum := r.2.2, format := cs, afterIndex := false }
    else plain

/-- The precision part of a verb ("Do we have precision?",
`if i+1 < end && format[i] == '.'`): a dot counts as the start of a precision
only when a byte follows it; a dot that ends the format is left to be the verb. -/
def pp.precision (p : pp) (a : List Arg) : pp :=
  match p.format with
  | [] => p
  | c :: cs =>
    if cs ≠ [] ∧ c = '.'.toUInt8 then
      let p : pp := { p with format := cs, goodArgNum := if p.afterIndex then false else p.goodArgNum }
      let p := p.argNumber a.length
      let plain : pp :=
        let r := parsenum p.format
        let f : fmtFlags :=
          if r.2.1 then { p.fmt with prec := r.1, precPresent := true }
          else { p.fmt with prec := 0, precPresent := true }
        { p with fmt := f, format := r.2.2 }
      match p.format with
      | [] => plain
      | d :: ds =>
        if d = '*'.toUInt8 then
          let r := intFromArg a p.argNum
          let f : fmtFlags := { p.fmt with prec := r.1, precPresent := r.2.1 }
          let f : fmtFlags := if f.prec < 0 then { f with prec := 0, precPresent := false } else f
          let buf := if f.precPresent then p.buf else p.buf ++ badPrecString
          { p with buf := buf, fmt := f, argNum := r.2.2, format := ds, afterIndex := false }
        else plain
    else p

/-- The end of a verb: the verb rune itself and the operand it prints. -/
def pp.verb (p : pp) (a : List Arg) : pp :=
  match p.format with
  | [] => { p with buf := p.buf ++ noVerbString }
  | c :: _ =>
    let r : Char × Nat :=
      if c.toNat < 0x80 then (Char.ofNat c.toNat, 1) else DecodeRuneInString p.format
    let verb := r.1
    let rest := p.format.drop r.2
    if verb = '%' then { p with buf := p.buf ++ ['%'.toUInt8], format := rest }
    else if !p.goodArgNum then
      { p with buf := p.buf ++ percentBangString ++ writeRune verb ++ badIndexString, format := rest }
    else
      match a.get? p.argNum with
      | none =>
        { p with buf := p.buf ++ percentBangString ++ writeRune verb ++ missingString, format := rest }
      | some arg =>
        { p with buf := p.buf ++ arg.print (vFlags p.fmt verb) verb, argNum := p.argNum + 1, format := rest }

/-- One verb of `doPrintf`: `format` is what follows the percent sign. -/
def doVerb (a : List Arg) (argNum : Nat) (reordered : Bool) (format : Str) : pp :=
  let fl := scanFlags {} format
  let p : pp :=
    { buf := [], fmt := fl.1, reordered := reordered, goodArgNum := true,
      argNum := argNum, afterIndex := false, format := fl.2 }
  let slow : pp :=
    let p := p.argNumber a.length
    let p := p.width a
    let p := p.precision a
    let p := if p.afterIndex then p else p.argNumber a.length
    p.verb a
  match fl.2 with
  | [] => slow
  | c :: cs =>
    if 'a'.toUInt8 ≤ c ∧ c ≤ 'z'.toUInt8 then
      match a.get? argNum with
      | some arg =>
        { p with
          buf := arg.print (vFlags fl.1 (Char.ofNat c.toNat)) (Char.ofNat c.toNat)
          argNum := argNum + 1
          format := cs }
      | none => slow
    else slow

/-- The check for extra operands that ends `doPrintf`: the operands left over,
`a[argNum:]`, are listed with their types. -/
def extraArgs (a : List Arg) (argNum : Nat) (reordered : Bool) : Str :=
  if !reordered ∧ argNum < a.length then
    extraString ++
      commaSpaceString.intercalate
        ((a.drop argNum).map (fun arg =>
          if arg.isNil then nilAngleString
          else arg.typeString ++ ['='.toUInt8] ++ arg.print {} 'v'))
      ++ [')'.toUInt8]
  else []

/-- Go `doPrintf`.  Every round of `formatLoop` consumes at least one byte of
the format, so the first argument, an upper bound on the number of rounds, is
never exhausted when it is at least the length of the format
(see `doPrintf_rounds`). -/
def doPrintf (a : List Arg) : Nat → Str → Nat → Bool → Str
  | _, [], argNum, reordered => extraArgs a argNum reordered
  | 0, _ :: _, argNum, reordered => extraArgs a argNum reordered
  | rounds + 1, c :: cs, argNum, reordered =>
    if c = '%'.toUInt8 then
      let p := doVerb a argNum reordered cs
      p.buf ++ doPrintf a rounds p.format p.argNum p.reordered
    else c :: doPrintf a rounds cs argNum reordered

/-- Go `fmt.Sprintf(format, a...)`. -/
def Sprintf (format : Str) (a : List Arg) : Str := doPrintf a format.length format 0 false

/-- What the plain verb `%v` prints for an `int`: base ten, with a minus sign
when negative (`fmtInteger`). -/
def formatInt : Int → Str
  | Int.ofNat m => (Nat.toDigits 10 m).map Char.toUInt8
  | Int.negSucc m => '-'.toUInt8 :: (Nat.toDigits 10 (m + 1)).map Char.toUInt8

/-- What a `fmt.Sprint` of operands that are all strings returns: the strings
one after the other (`doPrint` adds a space only between two operands neither
of which is a string). -/
def SprintStrings (a : List Str) : Str := a.flatten

/-! ## package io, net and bufio -/

/-- A Go `error` value as the code tells them apart: `io.EOF` or any other one. -/
inductive Fault where
  | EOF
  | other (id : Nat)
deriving DecidableEq

/-- What the transport hands to the reader next: one more byte of the stream,
or a failed `Read`. -/
inductive Incoming where
  | data (c : UInt8)
  | fail (e : Fault)
deriving DecidableEq

/-- A `net.Conn`.  It is an interface, so what it answers is given by the
environment: `incoming` is everything its `Read` will deliver, in order (once
it is exhausted the peer has closed and `Read` answers `io.EOF`), `writeScript`
holds the answers of the coming `Write` calls (a `Write` with no scripted answer
takes the whole slice) and `closeError` the answer of `Close`.  `written` logs
the slices passed to `Write`, one entry per call, and `closeCalls` counts the
calls of `Close`, that is how often the handle was released. -/
structure Conn where
  incoming : List Incoming
  writeScript : List (Nat × Option Fault)
  closeError : Option Fault
  written : List Str
  closeCalls : Nat
deriving DecidableEq

/-- Go `conn.Write(b)`: the connection afterwards, `n` and `err`. -/
def Conn.Write (conn : Conn) (data : Str) : Conn × Nat × Option Fault :=
  match conn.writeScript with
  | [] => ({ conn with written := conn.written ++ [data] }, data.length, none)
  | r :: rest => ({ conn with written := conn.written ++ [data], writeScript := rest }, r.1, r.2)

/-- Go `conn.Close()`: the connection afterwards and `err`. -/
def Conn.Close (conn : Conn) : Conn × Option Fault :=
  ({ conn with closeCalls := conn.closeCalls + 1 }, conn.closeError)

/-- A `*bufio.Reader` over a connection: the part of the stream it has not
handed out yet. -/
structure Reader where
  incoming : List Incoming
deriving DecidableEq

/-- Go `bufio.NewReader(conn)`. -/
def NewReader (conn : Conn) : Reader := { incoming := conn.incoming }

/-- The scan of `ReadString`: the bytes read, `err`, and the rest of the stream.
It stops after the first `delim`, or at the first failed read with the bytes
read before it. -/
def readUntil (delim : UInt8) : List Incoming → Str × Option Fault × List Incoming
  | [] => ([], some Fault.EOF, [])
  | Incoming.fail e :: rest => ([], some e, rest)
  | Incoming.data c :: rest =>
    if c = delim then ([c], none, rest)
    else
      let r := readUntil delim rest
      (c :: r.1, r.2.1, r.2.2)

/-- Go `(*bufio.Reader).ReadString(delim)`: the reader afterwards, the string and `err`. -/
def Reader.ReadString (r : Reader) (delim : UInt8) : Reader × Str × Option Fault :=
  let x := readUntil delim r.incoming
  ({ incoming := x.2.2 }, x.1, x.2.1)

/-! ## common/client.go -/

/-- A Go channel as `Client` uses it: a nil channel, an open one or a closed one. -/
inductive Chan where
  | nil
  | isOpen
  | closed
deriving DecidableEq

/-- A run-time panic. -/
inductive Panic where
  | nilDereference
  | closeOfNilChannel
  | closeOfClosedChannel
deriving DecidableEq

/-- Go `type Client struct`.  A nil `RawConnection` or `Reader` is `none`. -/
structure Client where
  RawConnection : Option Conn
  Reader : Option Reader
  Closed : Bool
  Channel : Chan
  Name : Str
deriving DecidableEq

/-- Go `func (c *Client) SetRawConnection(conn net.Conn)`. -/
def Client.SetRawConnection (c : Client) (conn : Option Conn) : Client :=
  match conn with
  | none => c
  | some k => { c with RawConnection := some k, Reader := some (NewReader k) }

/-- Go `func NewClient(name string, connection net.Conn) Client`. -/
def NewClient (name : Str) (connection : Option Conn) : Client :=
  let c : Client :=
    { Closed := false, Channel := Chan.isOpen, Name := name, RawConnection := none, Reader := none }
  c.SetRawConnection connection

/-- Modelled from the spec: `logger.Errorf`, of the logger that `NewLogger`
makes (not among the sources).  A failure surfaces as an entry of the log and
never as a crash: the call adds the error to the log and returns. -/
def Errorf (log : List Fault) (err : Fault) : List Fault := log ++ [err]

/-- Go `func (c *Client) Close()`: the client afterwards, the panic that ended
the call if one did, and what the call logged. -/
def Client.Close (c : Client) : Client × Option Panic × List Fault :=
  match c.Channel with
  | Chan.nil => (c, some Panic.closeOfNilChannel, [])
  | Chan.closed => (c, some Panic.closeOfClosedChannel, [])
  | Chan.isOpen =>
    let c : Client := { c with Channel := Chan.closed }
    match c.RawConnection with
    | none => (c, some Panic.nilDereference, [])
    | some conn =>
      let r := conn.Close
      let log : List Fault :=
        match r.2 with
        | some err => Errorf [] err
        | none => []
      ({ c with RawConnection := some r.1 }, none, log)

/-- Go `func (c *Client) ReadAllAsString() (string, error)`: the client
afterwards, and either the panic that ended the call or the two results. -/
def Client.ReadAllAsString (c : Client) : Client × Except Panic (Str × Option Fault) :=
  match c.Reader with
  | none => (c, Except.error Panic.nilDereference)
  | some r =>
    let x := r.ReadString '\n'.toUInt8
    let c : Client := { c with Reader := some x.1 }
    match x.2.2 with
    | some err => ({ c with Closed := decide (err = Fault.EOF) }, Except.ok ([], some err))
    | none => (c, Except.ok (Trim x.2.1 ['\r'.toUInt8, '\n'.toUInt8], none))

/-- The `data` that `SendString` hands to `Write`. -/
def frame (code : Int) (format : Str) (args : List Arg) : Str :=
  -- fmt.Sprintf("%v %v", code, format), an int and a string under the plain verb
  let fullFormat := formatInt code ++ [' '.toUInt8] ++ format
  let data := Sprintf fullFormat args
  if !HasSuffix data ['\n'.toUInt8] then data ++ ['\n'.toUInt8] else data

/-- Go `func (c *Client) SendString(code int, format string, args ...) (int, error)`:
the client afterwards, and either the panic that ended the call or the two results. -/
def Client.SendString (c : Client) (code : Int) (format : Str) (args : List Arg) :
    Client × Except Panic (Nat × Option Fault) :=
  let data := frame code format args
  match c.RawConnection with
  | none => (c, Except.error Panic.nilDereference)
  | some conn =>
    let w := conn.Write data
    ({ c with RawConnection := some w.1 }, Except.ok w.2)

/-- One call on a client. -/
inductive Call where
  | ReadAllAsString
  | SendString (code : Int) (format : Str) (args : List Arg)
  | Close

/-- The client after one call (after a panic: as the panic left it). -/
def Client.call (c : Client) : Call → Client
  | Call.ReadAllAsString => c.ReadAllAsString.1
  | Call.SendString code format args => (c.SendString code format args).1
  | Call.Close => c.Close.1

/-- The client after a sequence of calls. -/
def Client.run (c : Client) (calls : List Call) : Client := calls.foldl Client.call c

/-- The errors that the `ReadAllAsString` calls of a run return, in order. -/
def Client.readErrors (c : Client) : List Call → List Fault
  | [] => []
  | k :: ks =>
    let here : List Fault :=
      match k with
      | Call.ReadAllAsString =>
        match c.ReadAllAsString.2 with
        | Except.ok (_, some e) => [e]
        | _ => []
      | _ => []
    here ++ (c.call k).readErrors ks

/-- Has the stream handle been released: did `Close` run on the connection. -/
def Client.released (c : Client) : Bool :=
  match c.RawConnection with
  | none => false
  | some conn => decide (0 < conn.closeCalls)

/-- The bytes a connection delivers to the peer that reads them. -/
def deliver (data : Str) : List Incoming := data.map Incoming.data

/-! ## ui.go -/

def ResetColor : Str := bytes "\x1b[0m"
def Gold : Str := bytes "\x1b[0;33m"
def LightRed : Str := bytes "\x1b[1;31m"
def LightGreen : Str := bytes "\x1b[1;32m"
def LightPurple : Str := bytes "\x1b[1;35m"
def LightCyan : Str := bytes "\x1b[1;36m"

/-- Go `logColors`, the entries of the map as written in the source. -/
def logColors : List (Str × Str) :=
  [(bytes "[INFO", LightPurple), (bytes "[DEBUG", LightCyan), (bytes "[ERROR", LightRed)]

/-- Go `func chatFormatter(s string) string`. -/
def chatFormatter (s : Str) : Str :=
  let color := if HasPrefix s (bytes "(PM)") then Gold else ResetColor
  SprintStrings [color, s, ResetColor]

/-- The loop of `logFormatter` over the entries of the map in the order `range`
visits them: the colour of the first entry whose key is at the start of `s`. -/
def rangeLogColors (s : Str) (finalColor : Str) : List (Str × Str) → Str
  | [] => finalColor
  | (marker, color) :: rest => if HasPrefix s marker then color else rangeLogColors s finalColor rest

/-- Go `func logFormatter(s string) string`, for the order `visit` in which
`range logColors` visits the entries (Go leaves the order of a map open). -/
def logFormatter (visit : List (Str × Str)) (s : Str) : Str :=
  let finalColor := rangeLogColors s ResetColor visit
  SprintStrings [finalColor, s, ResetColor]

/-- Go `int` on a 64-bit platform: the value of a result computed in the
integers, wrapped around into the range of `int`. -/
def wrapInt (z : Int) : Int :=
  (z + 9223372036854775808) % 18446744073709551616 - 9223372036854775808

/-- The largest `int`. -/
def maxInt : Int := 9223372036854775807

def intMul (a b : Int) : Int := wrapInt (a * b)
def intQuo (a b : Int) : Int := wrapInt (Int.tdiv a b)
def intAdd (a b : Int) : Int := wrapInt (a + b)
def intSub (a b : Int) : Int := wrapInt (a - b)

/-- Go `type ViewDetails struct`. -/
structure ViewDetails where
  Name : String
  Title : String
  Editable : Bool
  Autoscroll : Bool
  Wrap : Bool
  x0 : Int → Int
  y0 : Int → Int
  x1 : Int → Int
  y1 : Int → Int
  data : List String

/-- Go `views`. -/
def views : List ViewDetails :=
  [ { Name := "input", Title := "What\x27s On Your Mind?", Autoscroll := true, Editable := true, Wrap := true,
      x0 := fun _ => 0,
      y0 := fun maxY => intSub (intQuo (intMul 3 maxY) 4) 3,
      x1 := fun maxX => intSub maxX 1,
      y1 := fun maxY => intSub (intQuo (intMul 3 maxY) 4) 1,
      data := [] },
    { Name := "log", Title := "Log", Autoscroll := true, Editable := false, Wrap := true,
      x0 := fun _ => 0,
      y0 := fun maxY => intQuo (intMul 3 maxY) 4,
      x1 := fun maxX => intSub maxX 1,
      y1 := fun maxY => intSub maxY 1,
      data := [] },
    { Name := "chat", Title := "Conversation", Autoscroll := true, Editable := false, Wrap := true,
      x0 := fun _ => 0,
      y0 := fun _ => 0,
      x1 := fun maxX => intMul (intQuo maxX 3) 2,
      y1 := fun maxY => intSub (intQuo (intMul 3 maxY) 4) 4,
      data := [] },
    { Name := "users", Title := "Users", Autoscroll := true, Editable := false, Wrap := true,
      x0 := fun maxX => intAdd (intMul (intQuo maxX 3) 2) 1,
      y0 := fun _ => 0,
      x1 := fun maxX => intSub maxX 1,
      y1 := fun maxY => intQuo maxY 2,
      data := [] },
    { Name := "help", Title := "Help", Autoscroll := true, Editable := false, Wrap := true,
      x0 := fun maxX => intAdd (intMul (intQuo maxX 3) 2) 1,
      y0 := fun maxY => intAdd (intQuo maxY 2) 1,
      x1 := fun maxX => intSub maxX 1,
      y1 := fun maxY => intSub (intQuo (intMul 3 maxY) 4) 4,
      data := ["/connect  <ip> <port>", "/pm       <name> <message...>",
               "/shell    <name> <command...>", "/exit"] } ]

/-- The rectangle that `layout` passes to `SetView` for a view is not
degenerate; `SetView` answers with an invalid-dimensions error otherwise. -/
def ViewDetails.validRect (details : ViewDetails) (maxX maxY : Int) : Bool :=
  decide (details.x0 maxX < details.x1 maxX) && decide (details.y0 maxY < details.y1 maxY)

/-- Every view that `layout` sets up gets a rectangle that is not degenerate. -/
def layoutValid (maxX maxY : Int) : Bool := views.all (fun details => details.validRect maxX maxY)

/-- Is the call a `Close`. -/
def Call.isClose : Call → Bool
  | Call.Close => true
  | _ => false

/-! ## Sample values -/

/-- An idle connection: nothing to deliver and nothing scripted. -/
def idle : Conn :=
  { incoming := [], writeScript := [], closeError := none, written := [], closeCalls := 0 }

/-- A connection whose next `Write` is scripted to accept three bytes and fail. -/
def flaky : Conn := { idle with writeScript := [(3, some (Fault.other 1))] }

/-- An operand that prints as "amy" under every verb. -/
def amy : Arg :=
  { isNil := false, typeString := bytes "string", intValue := none, print := fun _ _ => bytes "amy" }

/-- An operand that prints a line feed and the verb, whatever the verb. -/
def echo : Arg :=
  { isNil := false, typeString := bytes "main.echo", intValue := none,
    print := fun _ verb => '\n'.toUInt8 :: writeRune verb }

/-- An operand that prints as "bob" under every verb. -/
def bob : Arg :=
  { isNil := false, typeString := bytes "string", intValue := none, print := fun _ _ => bytes "bob" }

/-! ## Lemmas: package fmt -/

theorem digitChar_mem (n : Nat) (h : n < 10) :
    (Nat.digitChar n).toUInt8 ∈ bytes "0123456789" := by
  interval_cases n <;> decide

theorem toDigitsCore_mem (fuel : Nat) : ∀ (n : Nat) (acc : List Char) (c : Char),
    c ∈ Nat.toDigitsCore 10 fuel n acc → c ∈ acc ∨ c.toUInt8 ∈ bytes "0123456789" := by
  induction fuel with
  | zero => intro n acc c h; left; simpa [Nat.toDigitsCore] using h
  | succ k ih =>
    intro n acc c h
    have hd := digitChar_mem (n % 10) (Nat.mod_lt _ (by decide))
    unfold Nat.toDigitsCore at h
    simp only at h
    split at h
    · rcases List.mem_cons.1 h with h | h
      · right; rw [h]; exact hd
      · left; exact h
    · rcases ih _ _ _ h with h | h
      · rcases List.mem_cons.1 h with h | h
        · right; rw [h]; exact hd
        · left; exact h
      · right; exact h

theorem toDigitsCore_ne_nil (fuel n : Nat) (acc : List Char) (h : acc ≠ [] ∨ 0 < fuel) :
    Nat.toDigitsCore 10 fuel n acc ≠ [] := by
  induction fuel generalizing n acc with
  | zero =>
    rcases h with h | h
    · simpa [Nat.toDigitsCore] using h
    · omega
  | succ k ih =>
    unfold Nat.toDigitsCore
    simp only
    split
    · simp
    · exact ih _ _ (Or.inl (by simp))

/-- The bytes of a number in base ten are digits. -/
theorem toDigits_mem (n : Nat) (c : UInt8) (h : c ∈ (Nat.toDigits 10 n).map Char.toUInt8) :
    c ∈ bytes "0123456789" := by
  obtain ⟨d, hd, rfl⟩ := List.mem_map.1 h
  rcases toDigitsCore_mem _ _ _ _ hd with h | h
  · simp at h
  · exact h

/-- A printed `int` holds digits and the minus sign only. -/
theorem formatInt_mem (n : Int) (c : UInt8) (h : c ∈ formatInt n) : c ∈ bytes "-0123456789" := by
  cases n with
  | ofNat m =>
    have := toDigits_mem m c h
    exact List.mem_cons_of_mem _ this
  | negSucc m =>
    rcases List.mem_cons.1 h with h | h
    · rw [h]; decide
    · exact List.mem_cons_of_mem _ (toDigits_mem _ c h)

theorem formatInt_ne_nil (n : Int) : formatInt n ≠ [] := by
  cases n with
  | ofNat m =>
    intro h
    exact toDigitsCore_ne_nil _ _ _ (Or.inr (Nat.succ_pos _)) (List.map_eq_nil_iff.1 h)
  | negSucc m => simp [formatInt]

theorem parsenumLoop_length (s : Str) : ∀ (num : Int) (isnum : Bool),
    (parsenumLoop num isnum s).2.2.length ≤ s.length := by
  induction s with
  | nil => intro num isnum; simp [parsenumLoop]
  | cons c cs ih =>
    intro num isnum
    unfold parsenumLoop
    split
    · split
      · simp
      · exact Nat.le_succ_of_le (ih _ _)
    · simp

theorem parseArgNumber_length (format : Str) :
    (parseArgNumber format).2.1.length ≤ format.length := by
  unfold parseArgNumber
  split
  · simp
  · simp only
    split
    · simp
    · split <;> simp

theorem argNumber_length (p : pp) (numArgs : Nat) :
    (p.argNumber numArgs).format.length ≤ p.format.length := by
  unfold pp.argNumber
  split
  · simp_all
  · rename_i c cs h
    split
    · have := parseArgNumber_length p.format
      simp only
      split <;> simpa using this
    · simp

theorem scanFlags_length (s : Str) : ∀ f : fmtFlags, (scanFlags f s).2.length ≤ s.length := by
  induction s with
  | nil => intro f; simp [scanFlags]
  | cons c cs ih =>
    intro f
    unfold scanFlags
    repeat (first | (split; exact Nat.le_succ_of_le (ih _)) | simp)

theorem width_length (p : pp) (a : List Arg) : (p.width a).format.length ≤ p.format.length := by
  have hplain := parsenumLoop_length p.format 0 false
  unfold pp.width
  split
  · simpa [parsenum] using hplain
  · rename_i c cs h
    split
    · simp [h]
    · simpa [parsenum] using hplain

theorem precision_length (p : pp) (a : List Arg) :
    (p.precision a).format.length ≤ p.format.length := by
  unfold pp.precision
  split
  · exact Nat.le_refl _
  · rename_i c cs h
    split
    · simp only
      generalize hq : pp.argNumber _ a.length = q
      have hq1 : q.format.length ≤ cs.length := by
        have := argNumber_length
          { p with format := cs, goodArgNum := if p.afterIndex then false else p.goodArgNum } a.length
        rw [hq] at this
        exact this
      have hplain := parsenumLoop_length q.format 0 false
      rw [h]
      split
      · simp only [parsenum]
        exact Nat.le_succ_of_le (Nat.le_trans hplain hq1)
      · rename_i d ds h2
        split
        · simp only
          rw [h2] at hq1
          simp at hq1 ⊢
          omega
        · simp only [parsenum]
          exact Nat.le_succ_of_le (Nat.le_trans hplain hq1)
    · exact Nat.le_refl _

theorem verb_length (p : pp) (a : List Arg) : (p.verb a).format.length ≤ p.format.length := by
  unfold pp.verb
  split
  · simp_all
  · simp only
    repeat' split
    all_goals
      simp only [List.length_drop]
      omega

/-- A verb never gives back more of the format than it was handed. -/
theorem doVerb_length (a : List Arg) (argNum : Nat) (reordered : Bool) (format : Str) :
    (doVerb a argNum reordered format).format.length ≤ format.length := by
  have hfl := scanFlags_length format {}
  have hslow : ∀ p : pp, p.format.length ≤ format.length →
      ((if (((p.argNumber a.length).width a).precision a).afterIndex
          then (((p.argNumber a.length).width a).precision a)
          else (((p.argNumber a.length).width a).precision a).argNumber a.length).verb a).format.length
        ≤ format.length := by
    intro p hp
    refine Nat.le_trans (verb_length _ a) ?_
    have h3 : (((p.argNumber a.length).width a).precision a).format.length ≤ format.length :=
      Nat.le_trans (precision_length _ a)
        (Nat.le_trans (width_length _ a) (Nat.le_trans (argNumber_length _ _) hp))
    split
    · exact h3
    · exact Nat.le_trans (argNumber_length _ _) h3
  unfold doVerb
  simp only
  split
  · exact hslow _ hfl
  · rename_i c cs h
    split
    · split
      · simp only
        rw [h] at hfl
        exact Nat.le_of_succ_le hfl
      · exact hslow _ hfl
    · exact hslow _ hfl

/-- The bound on the rounds of `formatLoop` does not matter once it reaches the
length of the format: the loop always runs to the end of the format. -/
theorem doPrintf_rounds (a : List Arg) (m : Nat) : ∀ (n : Nat) (format : Str) (argNum : Nat)
    (reordered : Bool), format.length ≤ m → format.length ≤ n →
    doPrintf a m format argNum reordered = doPrintf a n format argNum reordered := by
  induction m with
  | zero =>
    intro n format argNum reordered hm _
    have : format = [] := List.length_eq_zero.1 (Nat.le_zero.1 hm)
    subst this
    cases n <;> simp [doPrintf]
  | succ k ih =>
    intro n format argNum reordered hm hn
    cases format with
    | nil => cases n <;> simp [doPrintf]
    | cons c cs =>
      cases n with
      | zero => simp at hn
      | succ j =>
        simp only [List.length_cons, Nat.add_le_add_iff_right] at hm hn
        simp only [doPrintf]
        split
        · have hv := doVerb_length a argNum reordered cs
          rw [ih j _ _ _ (Nat.le_trans hv hm) (Nat.le_trans hv hn)]
        · rw [ih j _ _ _ hm hn]

/-- Text before the first percent sign is copied, and the rest of the format is
interpolated as if it stood alone. -/
theorem doPrintf_literal (a : List Arg) (lit format : Str) (h : '%'.toUInt8 ∉ lit) :
    ∀ (m : Nat) (argNum : Nat) (reordered : Bool),
    doPrintf a (lit.length + m) (lit ++ format) argNum reordered
      = lit ++ doPrintf a m format argNum reordered := by
  induction lit with
  | nil => intro m argNum reordered; simp
  | cons c cs ih =>
    intro m argNum reordered
    have hc : c ≠ '%'.toUInt8 := fun e => h (by simp [e])
    have hcs : '%'.toUInt8 ∉ cs := fun e => h (List.mem_cons_of_mem _ e)
    have : (c :: cs).length + m = (cs.length + m) + 1 := by simp; omega
    rw [this, List.cons_append]
    simp only [doPrintf, hc, if_false]
    rw [ih hcs, List.cons_append]

theorem Sprintf_literal (a : List Arg) (lit format : Str) (h : '%'.toUInt8 ∉ lit) :
    Sprintf (lit ++ format) a = lit ++ Sprintf format a := by
  unfold Sprintf
  rw [List.length_append, doPrintf_literal a lit format h]

/-- A format without a percent sign and without operands is returned as it is. -/
theorem Sprintf_plain (format : Str) (h : '%'.toUInt8 ∉ format) : Sprintf format [] = format := by
  have := Sprintf_literal [] format [] h
  simpa [Sprintf, doPrintf, extraArgs] using this

/-- On two operands the format "%v %v" prints the first under the plain verb
`v`, a space, and the second under the plain verb `v`. -/
theorem Sprintf_v_v (a b : Arg) :
    Sprintf (bytes "%v %v") [a, b] = a.print {} 'v' ++ [' '.toUInt8] ++ b.print {} 'v' := by
  have h : Sprintf (bytes "%v %v") [a, b]
      = a.print {} 'v' ++ (' '.toUInt8 :: (b.print {} 'v' ++ [])) := rfl
  rw [h]
  simp

/-- The scanner at the edges of a verb: the tail for extra operands lists only
the operands left over; a dot that ends the format is the verb, with or without
an operand; a dot followed by a byte starts a precision. -/
theorem Sprintf_samples :
    Sprintf (bytes "%v") [bob, amy] = bytes "bob%!(EXTRA string=amy)" ∧
    Sprintf (bytes "x") [bob, amy] = bytes "x%!(EXTRA string=bob, string=amy)" ∧
    Sprintf (bytes "%.") [] = bytes "%!.(MISSING)" ∧
    Sprintf (bytes "%.") [echo] = bytes "\n." ∧
    Sprintf (bytes "%.x") [echo] = bytes "\nx" ∧
    Sprintf (bytes "%") [] = bytes "%!(NOVERB)" ∧
    Sprintf (bytes "%.2") [bob] = bytes "%!(NOVERB)%!(EXTRA string=bob)" := by
  refine ⟨by rfl, by rfl, by rfl, by rfl, by rfl, by rfl, by rfl⟩

/-! ## Lemmas: reading a line -/

theorem dropWhile_append_all {p : UInt8 → Bool} (l m : Str) (h : ∀ c ∈ l, p c = true) :
    (l ++ m).dropWhile p = m.dropWhile p := by
  induction l with
  | nil => rfl
  | cons c cs ih =>
    have hc : p c = true := h c (List.mem_cons_self _ _)
    simp only [List.cons_append, List.dropWhile_cons, hc, if_true]
    exact ih (fun d hd => h d (List.mem_cons_of_mem _ hd))

theorem dropWhile_head {p : UInt8 → Bool} (m : Str) (h : ∀ c, m.head? = some c → p c = false) :
    m.dropWhile p = m := by
  cases m with
  | nil => rfl
  | cons c cs => simp [List.dropWhile_cons, h c rfl]

/-- The cutset of `ReadAllAsString` takes away the carriage returns and line
feeds around a line and nothing else. -/
theorem Trim_line (lead mid trail : Str)
    (hlead : ∀ c ∈ lead, c = '\r'.toUInt8 ∨ c = '\n'.toUInt8) (htrail : ∀ c ∈ trail, c = '\r'.toUInt8 ∨ c = '\n'.toUInt8)
    (hhead : ∀ c, mid.head? = some c → c ≠ '\r'.toUInt8 ∧ c ≠ '\n'.toUInt8)
    (hlast : ∀ c, mid.getLast? = some c → c ≠ '\r'.toUInt8 ∧ c ≠ '\n'.toUInt8) :
    Trim (lead ++ mid ++ trail) ['\r'.toUInt8, '\n'.toUInt8] = mid := by
  have hp : ∀ c : UInt8, (c = '\r'.toUInt8 ∨ c = '\n'.toUInt8) → decide (c ∈ ['\r'.toUInt8, '\n'.toUInt8]) = true := by
    intro c hc; simpa using hc
  have hn : ∀ c : UInt8, (c ≠ '\r'.toUInt8 ∧ c ≠ '\n'.toUInt8) → decide (c ∈ ['\r'.toUInt8, '\n'.toUInt8]) = false := by
    intro c hc; simpa using hc
  unfold Trim TrimLeft TrimRight List.rdropWhile
  rw [List.reverse_append, dropWhile_append_all _ _ (fun c hc => hp c (htrail c (List.mem_reverse.1 hc)))]
  by_cases hmid : mid = []
  · subst hmid
    rw [List.append_nil, ← List.append_nil lead.reverse,
      dropWhile_append_all _ _ (fun c hc => hp c (hlead c (List.mem_reverse.1 hc)))]
    rfl
  · have hrev : ∀ c, (mid.reverse ++ lead.reverse).head? = some c →
        decide (c ∈ ['\r'.toUInt8, '\n'.toUInt8]) = false := by
      intro c hc
      apply hn c
      apply hlast c
      cases hm : mid.getLast? with
      | none => exact absurd (List.getLast?_eq_none_iff.1 hm) hmid
      | some d =>
        have : (mid.reverse ++ lead.reverse).head? = some d := by
          rw [List.head?_append, List.head?_reverse, hm]; rfl
        rw [this] at hc
        exact hc
    rw [List.reverse_append, dropWhile_head _ hrev, ← List.reverse_append,
      List.reverse_reverse, dropWhile_append_all _ _ (fun c hc => hp c (hlead c hc)),
      dropWhile_head _ (fun c hc => hn c (hhead c hc))]

/-- A stream that delivers a line and its line feed: `ReadString` returns both
and leaves what follows in the reader. -/
theorem readUntil_deliver (line : Str) (rest : List Incoming) (h : '\n'.toUInt8 ∉ line) :
    readUntil '\n'.toUInt8 (deliver (line ++ ['\n'.toUInt8]) ++ rest) = (line ++ ['\n'.toUInt8], none, rest) := by
  induction line with
  | nil => simp [deliver, readUntil]
  | cons c cs ih =>
    have hc : c ≠ '\n'.toUInt8 := fun e => h (by simp [e])
    have hcs : '\n'.toUInt8 ∉ cs := fun e => h (List.mem_cons_of_mem _ e)
    have ih := ih hcs
    simp only [deliver, List.map_append, List.map_cons, List.map_nil, List.cons_append,
      List.append_assoc] at ih ⊢
    simp only [readUntil, hc, if_false, ih]

/-- Reading a delivered line: the carriage returns around it are dropped, the
line itself is returned, and the flag `Closed` stays as it was. -/
theorem ReadAllAsString_line (c : Client) (lead mid trail : Str) (rest : List Incoming)
    (hc : c.Reader = some { incoming := deliver (lead ++ mid ++ trail ++ ['\n'.toUInt8]) ++ rest })
    (hlead : ∀ ch ∈ lead, ch = '\r'.toUInt8) (htrail : ∀ ch ∈ trail, ch = '\r'.toUInt8)
    (hmid : '\n'.toUInt8 ∉ mid)
    (hhead : mid.head? ≠ some '\r'.toUInt8) (hlast : mid.getLast? ≠ some '\r'.toUInt8) :
    c.ReadAllAsString = ({ c with Reader := some { incoming := rest } }, Except.ok (mid, none)) := by
  have hno : '\n'.toUInt8 ∉ lead ++ mid ++ trail := by
    intro hm
    rcases List.mem_append.1 hm with hm | hm
    · rcases List.mem_append.1 hm with hm | hm
      · exact absurd (hlead _ hm) (by decide)
      · exact hmid hm
    · exact absurd (htrail _ hm) (by decide)
  have htrim : Trim (lead ++ mid ++ (trail ++ ['\n'.toUInt8])) ['\r'.toUInt8, '\n'.toUInt8] = mid := by
    apply Trim_line
    · intro ch hch; exact Or.inl (hlead ch hch)
    · intro ch hch
      rcases List.mem_append.1 hch with hch | hch
      · exact Or.inl (htrail ch hch)
      · exact Or.inr (by simpa using hch)
    · intro ch hch
      refine ⟨fun e => hhead (e ▸ hch), fun e => hmid ?_⟩
      exact e ▸ List.mem_of_mem_head? hch
    · intro ch hch
      refine ⟨fun e => hlast (e ▸ hch), fun e => hmid ?_⟩
      exact e ▸ List.mem_of_mem_getLast? hch
  simp only [Client.ReadAllAsString, hc, Reader.ReadString, readUntil_deliver _ rest hno]
  rw [List.append_assoc, htrim]

/-- Every string splits into the carriage returns it starts with, the carriage
returns it ends with, and a middle part that neither starts nor ends with one. -/
theorem line_split (x : Str) :
    ∃ lead mid trail : Str, x = lead ++ mid ++ trail ∧
      (∀ ch ∈ lead, ch = '\r'.toUInt8) ∧ (∀ ch ∈ trail, ch = '\r'.toUInt8) ∧
      mid.head? ≠ some '\r'.toUInt8 ∧ mid.getLast? ≠ some '\r'.toUInt8 := by
  let p : UInt8 → Bool := fun ch => decide (ch = '\r'.toUInt8)
  let y := x.dropWhile p
  have hx : x = x.takeWhile p ++ y := (List.takeWhile_append_dropWhile p x).symm
  have hy : y = (y.reverse.dropWhile p).reverse ++ (y.reverse.takeWhile p).reverse := by
    rw [← List.reverse_append, List.takeWhile_append_dropWhile, List.reverse_reverse]
  have hyhead : y.head? ≠ some '\r'.toUInt8 := by
    intro h
    have := List.head?_dropWhile_not p x
    rw [show List.dropWhile p x = y from rfl, h] at this
    simp [p] at this
  have hlast : (y.reverse.dropWhile p).reverse.getLast? ≠ some '\r'.toUInt8 := by
    intro h
    rw [List.getLast?_reverse] at h
    have := List.head?_dropWhile_not p y.reverse
    rw [h] at this
    simp [p] at this
  refine ⟨x.takeWhile p, (y.reverse.dropWhile p).reverse, (y.reverse.takeWhile p).reverse, ?_, ?_, ?_, ?_, hlast⟩
  · rw [List.append_assoc, ← hy]; exact hx
  · intro ch hch
    simpa [p] using List.mem_takeWhile_imp hch
  · intro ch hch
    simpa [p] using List.mem_takeWhile_imp (List.mem_reverse.1 hch)
  · by_cases hm : (y.reverse.dropWhile p).reverse = []
    · rw [hm]; simp
    · intro h
      apply hyhead
      rw [hy, List.head?_append_of_ne_nil _ hm]
      exact h


/-! ## Lemmas: the frame of `SendString` -/

theorem percent_not_mem_code (code : Int) : '%'.toUInt8 ∉ formatInt code ++ [' '.toUInt8] := by
  intro h
  rcases List.mem_append.1 h with h | h
  · exact absurd (formatInt_mem code _ h) (by decide)
  · exact absurd h (by decide)

/-- The frame: the code, a space and the interpolated format, closed by a line
feed when it does not end with one. -/
theorem frame_eq (code : Int) (format : Str) (args : List Arg) :
    frame code format args
      = formatInt code ++ [' '.toUInt8] ++ Sprintf format args
          ++ (if HasSuffix (formatInt code ++ [' '.toUInt8] ++ Sprintf format args) ['\n'.toUInt8] then [] else ['\n'.toUInt8]) := by
  unfold frame
  simp only [Sprintf_literal args _ format (percent_not_mem_code code)]
  split <;> simp_all

theorem HasSuffix_newline_false (s : Str) (h : '\n'.toUInt8 ∉ s) : HasSuffix s ['\n'.toUInt8] = false := by
  unfold HasSuffix
  rw [Bool.eq_false_iff]
  intro hs
  have := List.isSuffixOf_iff_suffix.1 hs
  exact h (this.subset (by simp))

/-- The frame of a payload without line terminators. -/
theorem frame_clean (code : Int) (format : Str) (args : List Arg)
    (hn : '\n'.toUInt8 ∉ Sprintf format args) :
    frame code format args = formatInt code ++ [' '.toUInt8] ++ Sprintf format args ++ ['\n'.toUInt8] := by
  rw [frame_eq, HasSuffix_newline_false]
  · rfl
  · intro h
    rcases List.mem_append.1 h with h | h
    · rcases List.mem_append.1 h with h | h
      · exact absurd (formatInt_mem code _ h) (by decide)
      · exact absurd h (by decide)
    · exact hn h

theorem SendString_written (c : Client) (conn : Conn) (code : Int) (format : Str) (args : List Arg)
    (hc : c.RawConnection = some conn) :
    (c.SendString code format args).1.RawConnection.map Conn.written
      = some (conn.written ++ [frame code format args]) := by
  simp only [Client.SendString, hc, Conn.Write]
  cases conn.writeScript <;> rfl


/-! ## Lemmas: sequences of calls -/

theorem frame_getLast (code : Int) (format : Str) (args : List Arg) :
    (frame code format args).getLast? = some '\n'.toUInt8 := by
  rw [frame_eq]
  split
  · rename_i h
    obtain ⟨t, ht⟩ := List.isSuffixOf_iff_suffix.1 h
    rw [List.append_nil, ← ht]
    exact List.getLast?_concat _
  · exact List.getLast?_concat _

theorem call_keeps_channel (c : Client) (k : Call) (hk : k.isClose = false) :
    (c.call k).Channel = c.Channel ∧
    (c.call k).RawConnection.map Conn.closeCalls = c.RawConnection.map Conn.closeCalls := by
  cases k with
  | Close => simp [Call.isClose] at hk
  | ReadAllAsString =>
    simp only [Client.call, Client.ReadAllAsString]
    cases c.Reader with
    | none => exact ⟨rfl, rfl⟩
    | some r =>
      simp only
      split <;> exact ⟨rfl, rfl⟩
  | SendString code format args =>
    simp only [Client.call, Client.SendString]
    cases hconn : c.RawConnection with
    | none => simp [hconn]
    | some conn =>
      simp only [Conn.Write]
      cases conn.writeScript <;> simp

theorem run_keeps_channel (calls : List Call) : ∀ (c : Client),
    (∀ k ∈ calls, k.isClose = false) →
    (c.run calls).Channel = c.Channel ∧
    (c.run calls).RawConnection.map Conn.closeCalls = c.RawConnection.map Conn.closeCalls := by
  induction calls with
  | nil => intro c _; exact ⟨rfl, rfl⟩
  | cons k ks ih =>
    intro c h
    have h1 := call_keeps_channel c k (h k (List.mem_cons_self _ _))
    have h2 := ih (c.call k) (fun j hj => h j (List.mem_cons_of_mem _ hj))
    simp only [Client.run, List.foldl_cons] at h2 ⊢
    exact ⟨h2.1.trans h1.1, h2.2.trans h1.2⟩

theorem call_keeps_nil (c : Client) (k : Call) (h : c.RawConnection = none ∧ c.Reader = none) :
    (c.call k).RawConnection = none ∧ (c.call k).Reader = none := by
  cases k with
  | Close =>
    simp only [Client.call, Client.Close]
    cases c.Channel <;> simp [h.1, h.2]
  | ReadAllAsString => simp [Client.call, Client.ReadAllAsString, h.1, h.2]
  | SendString code format args => simp [Client.call, Client.SendString, h.1, h.2]

theorem run_keeps_nil (calls : List Call) : ∀ (c : Client),
    (c.RawConnection = none ∧ c.Reader = none) →
    (c.run calls).RawConnection = none ∧ (c.run calls).Reader = none := by
  induction calls with
  | nil => intro c h; exact h
  | cons k ks ih =>
    intro c h
    exact ih (c.call k) (call_keeps_nil c k h)

/-- The flag `Closed` after a call: set by a failed read, kept by everything else. -/
theorem call_closed (c : Client) (k : Call) :
    (c.call k).Closed =
      match (c.readErrors [k]).getLast? with
      | some e => decide (e = Fault.EOF)
      | none => c.Closed := by
  cases k with
  | Close =>
    simp only [Client.call, Client.Close, Client.readErrors]
    cases c.Channel <;> simp
    cases c.RawConnection <;> simp
  | SendString code format args =>
    simp only [Client.call, Client.SendString, Client.readErrors]
    cases c.RawConnection <;> simp
  | ReadAllAsString =>
    simp only [Client.call, Client.ReadAllAsString, Client.readErrors]
    cases c.Reader with
    | none => simp
    | some r =>
      simp only
      cases (r.ReadString '\n'.toUInt8).2.2 <;> simp

theorem readErrors_cons (c : Client) (k : Call) (ks : List Call) :
    c.readErrors (k :: ks) = c.readErrors [k] ++ (c.call k).readErrors ks := by
  simp [Client.readErrors]

theorem run_closed (calls : List Call) : ∀ (c : Client),
    (c.run calls).Closed =
      match (c.readErrors calls).getLast? with
      | some e => decide (e = Fault.EOF)
      | none => c.Closed := by
  induction calls with
  | nil => intro c; rfl
  | cons k ks ih =>
    intro c
    have h1 := call_closed c k
    have h2 := ih (c.call k)
    rw [readErrors_cons]
    simp only [Client.run, List.foldl_cons] at h2 ⊢
    rw [h2]
    cases hl : ((c.call k).readErrors ks).getLast? with
    | some e => simp [List.getLast?_append, hl]
    | none =>
      simp only [List.getLast?_append, hl, Option.none_or]
      exact h1

/-! ## Lemmas: ui.go -/

/-- The loop of `logFormatter` finds the colour of a matching entry when all
matching entries carry that colour. -/
theorem rangeLogColors_match (s : Str) (d : Str) (marker color : Str) (visit : List (Str × Str))
    (hmem : (marker, color) ∈ visit) (hm : HasPrefix s marker = true)
    (hall : ∀ e ∈ visit, HasPrefix s e.1 = true → e.2 = color) :
    rangeLogColors s d visit = color := by
  induction visit with
  | nil => simp at hmem
  | cons e es ih =>
    obtain ⟨m, c⟩ := e
    unfold rangeLogColors
    by_cases h : HasPrefix s m = true
    · rw [if_pos h]
      exact hall (m, c) (List.mem_cons_self _ _) h
    · rw [if_neg h]
      rcases List.mem_cons.1 hmem with hmem | hmem
      · have : marker = m := congrArg Prod.fst hmem
        rw [this] at hm
        exact absurd hm h
      · exact ih hmem (fun e he => hall e (List.mem_cons_of_mem _ he))

/-- The loop of `logFormatter` keeps the starting colour when no entry matches. -/
theorem rangeLogColors_none (s : Str) (d : Str) (visit : List (Str × Str))
    (hall : ∀ e ∈ visit, HasPrefix s e.1 = false) :
    rangeLogColors s d visit = d := by
  induction visit with
  | nil => rfl
  | cons e es ih =>
    obtain ⟨m, c⟩ := e
    unfold rangeLogColors
    have h : HasPrefix s m = false := hall (m, c) (List.mem_cons_self _ _)
    simp only [h, Bool.false_eq_true, if_false]
    exact ih (fun e he => hall e (List.mem_cons_of_mem _ he))

/-- The second byte of a string that starts with a marker of two bytes or
more. -/
theorem HasPrefix_second (s : Str) (a b : UInt8) (rest : Str)
    (h : HasPrefix s (a :: b :: rest) = true) : s.get? 1 = some b := by
  obtain ⟨t, ht⟩ := List.isPrefixOf_iff_prefix.1 h
  rw [← ht]
  rfl

theorem logColors_exclusive (s : Str) :
    ¬ (HasPrefix s (bytes "[INFO") = true ∧ HasPrefix s (bytes "[DEBUG") = true) ∧
    ¬ (HasPrefix s (bytes "[INFO") = true ∧ HasPrefix s (bytes "[ERROR") = true) ∧
    ¬ (HasPrefix s (bytes "[DEBUG") = true ∧ HasPrefix s (bytes "[ERROR") = true) := by
  refine ⟨?_, ?_, ?_⟩ <;>
  · rintro ⟨h1, h2⟩
    have e1 := HasPrefix_second s _ _ _ h1
    have e2 := HasPrefix_second s _ _ _ h2
    rw [e1] at e2
    exact absurd e2 (by decide)

theorem wrapInt_id (z : Int) (h1 : -9223372036854775808 ≤ z) (h2 : z ≤ 9223372036854775807) :
    wrapInt z = z := by
  unfold wrapInt
  omega


/-! ## The claims -/

/-- C1 (as amended): for every code and every payload without a carriage return,
a line feed or a percent sign, `SendString(code, payload)` without further
operands writes one slice, and a peer whose stream delivers that slice gets
from `ReadAllAsString` exactly the decimal code, a space and the payload, with
no error. -/
theorem C1_round_trip (sender : Client) (conn : Conn) (code : Int) (payload : Str)
    (rest : List Incoming)
    (hcr : '\r'.toUInt8 ∉ payload) (hlf : '\n'.toUInt8 ∉ payload) (hpc : '%'.toUInt8 ∉ payload)
    (hsender : sender.RawConnection = some conn) :
    ∃ w : Str,
      (sender.SendString code payload []).1.RawConnection.map Conn.written
        = some (conn.written ++ [w]) ∧
      ∀ peer : Client, peer.Reader = some { incoming := deliver w ++ rest } →
        peer.ReadAllAsString.2 = Except.ok (formatInt code ++ [' '.toUInt8] ++ payload, none) := by
  refine ⟨frame code payload [], SendString_written _ _ _ _ _ hsender, ?_⟩
  intro peer hpeer
  have hS : Sprintf payload [] = payload := Sprintf_plain payload hpc
  have hframe : frame code payload [] = [] ++ (formatInt code ++ [' '.toUInt8] ++ payload) ++ [] ++ ['\n'.toUInt8] := by
    rw [frame_clean code payload [] (by rw [hS]; exact hlf), hS]; simp
  rw [hframe] at hpeer
  rw [ReadAllAsString_line peer [] (formatInt code ++ [' '.toUInt8] ++ payload) [] rest hpeer
    (by simp) (by simp)]
  · intro h
    rcases List.mem_append.1 h with h | h
    · rcases List.mem_append.1 h with h | h
      · exact absurd (formatInt_mem code _ h) (by decide)
      · exact absurd h (by decide)
    · exact hlf h
  · intro h
    have hne := formatInt_ne_nil code
    cases hf : formatInt code with
    | nil => exact hne hf
    | cons d ds =>
      rw [hf] at h
      simp only [List.cons_append, List.head?_cons, Option.some.injEq] at h
      have := formatInt_mem code d (by rw [hf]; exact List.mem_cons_self _ _)
      rw [h] at this
      exact absurd this (by decide)
  · intro h
    have hm := List.mem_of_mem_getLast? h
    rcases List.mem_append.1 hm with hm | hm
    · rcases List.mem_append.1 hm with hm | hm
      · exact absurd (formatInt_mem code _ hm) (by decide)
      · exact absurd hm (by decide)
    · exact hcr hm

/-- C1, witness: code 220 and payload "ready" come back as "220 ready". -/
theorem C1_round_trip_witness :
    ((NewClient (bytes "b") (some { idle with incoming := deliver (bytes "220 ready\n") })).ReadAllAsString).2
      = Except.ok ((bytes "220 ready"), none) := by
  obtain ⟨w, hw, hread⟩ := C1_round_trip (NewClient (bytes "a") (some idle)) idle 220 (bytes "ready") []
    (by decide) (by decide) (by decide) rfl
  have h2 : ((NewClient (bytes "a") (some idle)).SendString 220 (bytes "ready") []).1.RawConnection.map
      Conn.written = some (idle.written ++ [(bytes "220 ready\n")]) := by rfl
  rw [h2] at hw
  have hw2 : w = (bytes "220 ready\n") := by simpa [idle] using hw.symm
  subst hw2
  exact hread _ rfl

/-- C1, counterexample: the payload "%%" holds no line terminator, yet
`SendString(0, "%%")` writes "0 %" and a line feed, and the peer that reads
these bytes gets "0 %", which is not the code, a space and the payload. -/
theorem C1_counterexample :
    ((NewClient (bytes "a") (some idle)).SendString 0 (bytes "%%") []).1.RawConnection.map Conn.written
        = some [(bytes "0 %\n")] ∧
    ((NewClient (bytes "b") (some { idle with incoming := deliver (bytes "0 %\n") })).ReadAllAsString).2
        = Except.ok ((bytes "0 %"), none) ∧
    (bytes "0 %") ≠ formatInt 0 ++ [' '.toUInt8] ++ (bytes "%%") ∧
    '\r'.toUInt8 ∉ (bytes "%%") ∧ '\n'.toUInt8 ∉ (bytes "%%") := by
  refine ⟨by rfl, by rfl, by decide, by decide, by decide⟩

/-- C2 (as amended): when the stream delivers `x` and a line feed, `x` holding no
line feed, `ReadAllAsString` succeeds and returns `x` without all the carriage
returns it starts with and all the carriage returns it ends with (not only one
final carriage return); the part in between, carriage returns included, is
returned unchanged, and the flag `Closed` stays as it was. -/
theorem C2_read_line (c : Client) (x : Str) (rest : List Incoming)
    (hx : '\n'.toUInt8 ∉ x) (hc : c.Reader = some { incoming := deliver (x ++ ['\n'.toUInt8]) ++ rest }) :
    ∃ lead mid trail : Str, x = lead ++ mid ++ trail ∧
      (∀ ch ∈ lead, ch = '\r'.toUInt8) ∧ (∀ ch ∈ trail, ch = '\r'.toUInt8) ∧
      mid.head? ≠ some '\r'.toUInt8 ∧ mid.getLast? ≠ some '\r'.toUInt8 ∧
      c.ReadAllAsString.2 = Except.ok (mid, none) ∧
      c.ReadAllAsString.1.Closed = c.Closed := by
  obtain ⟨lead, mid, trail, hsplit, hlead, htrail, hhead, hlast⟩ := line_split x
  refine ⟨lead, mid, trail, hsplit, hlead, htrail, hhead, hlast, ?_⟩
  have hmid : '\n'.toUInt8 ∉ mid := by
    intro h
    apply hx
    rw [hsplit]
    exact List.mem_append_left _ (List.mem_append_right _ h)
  rw [hsplit] at hc
  rw [ReadAllAsString_line c lead mid trail rest hc hlead htrail hmid hhead hlast]
  exact ⟨rfl, rfl⟩

/-- C2, witness: the line "a\rb" between two carriage returns on each side is
returned as "a\rb". -/
theorem C2_read_line_witness :
    (∃ lead mid trail : Str, bytes "\r\ra\rb\r\r" = lead ++ mid ++ trail ∧
      (∀ ch ∈ lead, ch = '\r'.toUInt8) ∧ (∀ ch ∈ trail, ch = '\r'.toUInt8) ∧
      mid.head? ≠ some '\r'.toUInt8 ∧ mid.getLast? ≠ some '\r'.toUInt8 ∧
      (NewClient (bytes "b") (some { idle with
          incoming := deliver (bytes "\r\ra\rb\r\r" ++ ['\n'.toUInt8]) ++ [] })).ReadAllAsString.2
        = Except.ok (mid, none) ∧
      (NewClient (bytes "b") (some { idle with
          incoming := deliver (bytes "\r\ra\rb\r\r" ++ ['\n'.toUInt8]) ++ [] })).ReadAllAsString.1.Closed
        = (NewClient (bytes "b") (some { idle with
          incoming := deliver (bytes "\r\ra\rb\r\r" ++ ['\n'.toUInt8]) ++ [] })).Closed) ∧
    (NewClient (bytes "b") (some { idle with
        incoming := deliver (bytes "\r\ra\rb\r\r" ++ ['\n'.toUInt8]) ++ [] })).ReadAllAsString.2
      = Except.ok (bytes "a\rb", none) :=
  ⟨C2_read_line _ (bytes "\r\ra\rb\r\r") [] (by decide) rfl, by rfl⟩

/-- C2, counterexample: the stream delivers "\rab\r\r" and a line feed.  The
claim asks for "\rab\r" (one final carriage return removed, the others kept);
`ReadAllAsString` returns "ab". -/
theorem C2_counterexample :
    '\n'.toUInt8 ∉ (bytes "\rab\r\r") ∧
    (NewClient (bytes "b") (some { idle with incoming := deliver (bytes "\rab\r\r\n") })).ReadAllAsString.2
      = Except.ok ((bytes "ab"), none) ∧
    (bytes "ab") ≠ (bytes "\rab\r") := by
  refine ⟨by decide, by rfl, by decide⟩

/-- C3: `ReadAllAsString` returns the error of the line read, whatever it is.
With an error it returns the empty string, whatever was read before the error,
and sets `Closed` to whether the error is `io.EOF`: true at the end of the
stream, false for any other error.  Without an error `Closed` stays as it was. -/
theorem C3_read_error (c : Client) (r : Reader) (hc : c.Reader = some r) :
    (∃ s, c.ReadAllAsString.2 = Except.ok (s, (r.ReadString '\n'.toUInt8).2.2)) ∧
    (∀ e, (r.ReadString '\n'.toUInt8).2.2 = some e →
      c.ReadAllAsString.2 = Except.ok ([], some e) ∧
      c.ReadAllAsString.1.Closed = decide (e = Fault.EOF)) ∧
    ((r.ReadString '\n'.toUInt8).2.2 = some Fault.EOF → c.ReadAllAsString.1.Closed = true) ∧
    (∀ id, (r.ReadString '\n'.toUInt8).2.2 = some (Fault.other id) → c.ReadAllAsString.1.Closed = false) ∧
    ((r.ReadString '\n'.toUInt8).2.2 = none → c.ReadAllAsString.1.Closed = c.Closed) := by
  unfold Client.ReadAllAsString
  rw [hc]
  cases h : (r.ReadString '\n'.toUInt8).2.2 with
  | none => simp [h]
  | some e =>
    simp only [h, Option.some.injEq, forall_eq', reduceCtorEq, false_implies, and_true,
      Prod.mk.injEq, Except.ok.injEq, exists_eq_left', true_and, decide_eq_true_eq,
      decide_eq_false_iff_not, imp_self]
    refine ⟨⟨[], rfl⟩, ?_⟩
    intro id he
    simp [he]

/-- C3, witness: a stream that ends after "ab" gives the empty string and
`io.EOF` and sets `Closed`; a stream that fails after "ab" with another error
gives the empty string and that error and clears `Closed`. -/
theorem C3_read_error_witness :
    (NewClient (bytes "b") (some { idle with incoming := deliver (bytes "ab") })).ReadAllAsString.2
      = Except.ok ([], some Fault.EOF) ∧
    (NewClient (bytes "b") (some { idle with incoming := deliver (bytes "ab") })).ReadAllAsString.1.Closed = true ∧
    ({ NewClient (bytes "b") (some { idle with incoming := deliver (bytes "ab") ++ [Incoming.fail (Fault.other 7)] })
        with Closed := true } : Client).ReadAllAsString.2 = Except.ok ([], some (Fault.other 7)) ∧
    ({ NewClient (bytes "b") (some { idle with incoming := deliver (bytes "ab") ++ [Incoming.fail (Fault.other 7)] })
        with Closed := true } : Client).ReadAllAsString.1.Closed = false :=
  ⟨((C3_read_error (NewClient (bytes "b") (some { idle with incoming := deliver (bytes "ab") })) _ rfl).2.1
      Fault.EOF rfl).1,
   (C3_read_error (NewClient (bytes "b") (some { idle with incoming := deliver (bytes "ab") })) _ rfl).2.2.1 rfl,
   ((C3_read_error ({ NewClient (bytes "b")
      (some { idle with incoming := deliver (bytes "ab") ++ [Incoming.fail (Fault.other 7)] })
        with Closed := true } : Client) _ rfl).2.1 (Fault.other 7) rfl).1,
   (C3_read_error ({ NewClient (bytes "b")
      (some { idle with incoming := deliver (bytes "ab") ++ [Incoming.fail (Fault.other 7)] })
        with Closed := true } : Client) _ rfl).2.2.2.1 7 rfl⟩

/-- C4: on a client that holds a connection, `SendString` performs one `Write`,
of the bytes `D ++ T` where `D` is the decimal code, a space and the format
interpolated with the operands on its own, and `T` is empty when `D` ends with
a line feed and a line feed otherwise; it returns the count and the error of
that `Write`, and changes nothing else in the client. -/
theorem C4_one_write (c : Client) (conn : Conn) (code : Int) (format : Str) (args : List Arg)
    (hc : c.RawConnection = some conn) :
    ∃ D T : Str,
      D = formatInt code ++ [' '.toUInt8] ++ Sprintf format args ∧
      T = (if HasSuffix D ['\n'.toUInt8] then [] else ['\n'.toUInt8]) ∧
      (c.SendString code format args).1.RawConnection.map Conn.written
        = some (conn.written ++ [D ++ T]) ∧
      (c.SendString code format args).2 = Except.ok (conn.Write (D ++ T)).2 ∧
      (c.SendString code format args).1 = { c with RawConnection := some (conn.Write (D ++ T)).1 } := by
  refine ⟨_, _, rfl, rfl, ?_, ?_, ?_⟩
  · rw [← frame_eq]; exact SendString_written c conn code format args hc
  · rw [← frame_eq]; simp [Client.SendString, hc]
  · rw [← frame_eq]; simp [Client.SendString, hc]

/-- C4, witness: `SendString(1, "%v", bob, amy)` on a connection whose `Write`
accepts three bytes and fails writes "1 bob%!(EXTRA string=amy)" and a line
feed, and returns 3 and that error. -/
theorem C4_one_write_witness :
    (∃ D T : Str,
      D = formatInt 1 ++ [' '.toUInt8] ++ Sprintf (bytes "%v") [bob, amy] ∧
      T = (if HasSuffix D ['\n'.toUInt8] then [] else ['\n'.toUInt8]) ∧
      ((NewClient (bytes "a") (some flaky)).SendString 1 (bytes "%v") [bob, amy]).1.RawConnection.map
          Conn.written = some (flaky.written ++ [D ++ T]) ∧
      ((NewClient (bytes "a") (some flaky)).SendString 1 (bytes "%v") [bob, amy]).2
        = Except.ok (flaky.Write (D ++ T)).2 ∧
      ((NewClient (bytes "a") (some flaky)).SendString 1 (bytes "%v") [bob, amy]).1
        = { NewClient (bytes "a") (some flaky) with RawConnection := some (flaky.Write (D ++ T)).1 }) ∧
    ((NewClient (bytes "a") (some flaky)).SendString 1 (bytes "%v") [bob, amy]).1.RawConnection.map
        Conn.written = some [bytes "1 bob%!(EXTRA string=amy)\n"] ∧
    ((NewClient (bytes "a") (some flaky)).SendString 1 (bytes "%v") [bob, amy]).2
      = Except.ok (3, some (Fault.other 1)) :=
  ⟨C4_one_write (NewClient (bytes "a") (some flaky)) flaky 1 (bytes "%v") [bob, amy] rfl,
   by rfl, by rfl⟩

/-- C5 (as amended): the bytes `SendString` writes always end with a line feed;
when the interpolated format holds no carriage return and no line feed, they
hold exactly one line feed, the final one, and no carriage return. -/
theorem C5_frame (c : Client) (conn : Conn) (code : Int) (format : Str) (args : List Arg)
    (hc : c.RawConnection = some conn) :
    ∃ w : Str,
      (c.SendString code format args).1.RawConnection.map Conn.written = some (conn.written ++ [w]) ∧
      w.getLast? = some '\n'.toUInt8 ∧
      ('\r'.toUInt8 ∉ Sprintf format args → '\n'.toUInt8 ∉ Sprintf format args →
        List.count '\n'.toUInt8 w = 1 ∧ '\r'.toUInt8 ∉ w) := by
  refine ⟨frame code format args, SendString_written c conn code format args hc,
    frame_getLast code format args, ?_⟩
  intro hcr hlf
  have hcode : ∀ ch : UInt8, ch ∈ formatInt code ++ [' '.toUInt8] → ch ≠ '\n'.toUInt8 ∧ ch ≠ '\r'.toUInt8 := by
    intro ch h
    rcases List.mem_append.1 h with h | h
    · have := formatInt_mem code ch h
      constructor <;> (intro e; rw [e] at this; exact absurd this (by decide))
    · have : ch = ' '.toUInt8 := by simpa using h
      rw [this]; decide
  rw [frame_clean code format args hlf]
  constructor
  · rw [List.count_append, List.count_append]
    have h1 : List.count '\n'.toUInt8 (formatInt code ++ [' '.toUInt8]) = 0 :=
      List.count_eq_zero.2 (fun h => (hcode _ h).1 rfl)
    have h2 : List.count '\n'.toUInt8 (Sprintf format args) = 0 := List.count_eq_zero.2 hlf
    rw [h1, h2]; rfl
  · intro h
    rcases List.mem_append.1 h with h | h
    · rcases List.mem_append.1 h with h | h
      · exact (hcode _ h).2 rfl
      · exact hcr h
    · exact absurd h (by decide)

/-- C5, witness: `SendString(220, "ready")` writes "220 ready" and a line feed. -/
theorem C5_frame_witness :
    (∃ w : Str,
      ((NewClient (bytes "a") (some idle)).SendString 220 (bytes "ready") []).1.RawConnection.map
          Conn.written = some (idle.written ++ [w]) ∧
      w.getLast? = some '\n'.toUInt8 ∧
      ('\r'.toUInt8 ∉ Sprintf (bytes "ready") [] → '\n'.toUInt8 ∉ Sprintf (bytes "ready") [] →
        List.count '\n'.toUInt8 w = 1 ∧ '\r'.toUInt8 ∉ w)) ∧
    '\r'.toUInt8 ∉ Sprintf (bytes "ready") [] ∧ '\n'.toUInt8 ∉ Sprintf (bytes "ready") [] ∧
    ((NewClient (bytes "a") (some idle)).SendString 220 (bytes "ready") []).1.RawConnection.map
        Conn.written = some [bytes "220 ready\n"] :=
  ⟨C5_frame (NewClient (bytes "a") (some idle)) idle 220 (bytes "ready") [] rfl,
   by decide, by decide, by rfl⟩

/-- C5, counterexample: `SendString(0, "a\nb")` writes "0 a\nb\n", with two line
feeds, and `SendString(0, "a\r")` writes "0 a\r\n", with a carriage return right
before the final line feed; a line feed can come from an operand as well:
`SendString(1, "%.", echo)` writes "1 \n.\n". -/
theorem C5_counterexample :
    ((NewClient (bytes "a") (some idle)).SendString 0 (bytes "a\nb") []).1.RawConnection.map Conn.written
      = some [(bytes "0 a\nb\n")] ∧
    List.count '\n'.toUInt8 (bytes "0 a\nb\n") = 2 ∧
    ((NewClient (bytes "a") (some idle)).SendString 0 (bytes "a\r") []).1.RawConnection.map Conn.written
      = some [(bytes "0 a\r\n")] ∧
    ((NewClient (bytes "a") (some idle)).SendString 1 (bytes "%.") [echo]).1.RawConnection.map Conn.written
      = some [(bytes "1 \n.\n")] ∧
    List.count '\n'.toUInt8 (bytes "1 \n.\n") = 2 := by
  refine ⟨by rfl, by decide, by rfl, by rfl, by decide⟩

/-- C6: a client made by `NewClient` with a connection whose handle has not been
released, after any reads and writes: `Close` returns without a panic, closes
the channel and releases the handle once, logging the error of the handle if
there is one.  After any further reads and writes a
second `Close` panics on the closed channel and leaves the client as it is, so
the handle is released once and the channel closed once. -/
theorem C6_close_twice (name : Str) (conn : Conn) (before between : List Call)
    (hlive : conn.closeCalls = 0)
    (hbefore : ∀ k ∈ before, k.isClose = false) (hbetween : ∀ k ∈ between, k.isClose = false) :
    ((NewClient name (some conn)).run before).Channel = Chan.isOpen ∧
    ((NewClient name (some conn)).run before).released = false ∧
    ((NewClient name (some conn)).run before).Close.2.1 = none ∧
    ((NewClient name (some conn)).run before).Close.1.Channel = Chan.closed ∧
    ((NewClient name (some conn)).run before).Close.1.RawConnection.map Conn.closeCalls = some 1 ∧
    ((((NewClient name (some conn)).run before).Close.1.run between).Close.2.1
      = some Panic.closeOfClosedChannel) ∧
    ((((NewClient name (some conn)).run before).Close.1.run between).Close.1
      = (((NewClient name (some conn)).run before).Close.1.run between)) ∧
    ((((NewClient name (some conn)).run before).Close.1.run between).Close.1.RawConnection.map
      Conn.closeCalls = some 1) := by
  have h0 := run_keeps_channel before (NewClient name (some conn)) hbefore
  have hch : ((NewClient name (some conn)).run before).Channel = Chan.isOpen := h0.1
  have hcc : ((NewClient name (some conn)).run before).RawConnection.map Conn.closeCalls = some 0 := by
    rw [h0.2]; simp [NewClient, Client.SetRawConnection, hlive]
  generalize (NewClient name (some conn)).run before = c at hch hcc ⊢
  cases hconn : c.RawConnection with
  | none => rw [hconn] at hcc; simp at hcc
  | some k =>
    rw [hconn] at hcc
    have hk : k.closeCalls = 0 := by simpa using hcc
    have hclose : c.Close.1 = { c with Channel := Chan.closed, RawConnection := some k.Close.1 } ∧
        c.Close.2.1 = none := by
      simp [Client.Close, hch, hconn]
    have h1 := run_keeps_channel between c.Close.1 hbetween
    rw [hclose.1] at h1 ⊢
    rw [hclose.2]
    simp only at h1
    have hpanic : ∀ d : Client, d.Channel = Chan.closed →
        d.Close = (d, some Panic.closeOfClosedChannel, []) := by
      intro d hd; simp [Client.Close, hd]
    rw [hpanic _ h1.1]
    refine ⟨hch, ?_, rfl, rfl, ?_, rfl, rfl, ?_⟩
    · simp [Client.released, hconn, hk]
    · simp [Conn.Close, hk]
    · rw [h1.2]; simp [Conn.Close, hk]

/-- C6, witness: a write, `Close`, a read, `Close`. -/
theorem C6_close_twice_witness :
    ((NewClient (bytes "a") (some idle)).run [Call.SendString 220 (bytes "ready") []]).Close.2.1 = none ∧
    (((NewClient (bytes "a") (some idle)).run [Call.SendString 220 (bytes "ready") []]).Close.1.run
      [Call.ReadAllAsString]).Close.2.1 = some Panic.closeOfClosedChannel ∧
    (((NewClient (bytes "a") (some idle)).run [Call.SendString 220 (bytes "ready") []]).Close.1.run
      [Call.ReadAllAsString]).Close.1.RawConnection.map Conn.closeCalls = some 1 :=
  ⟨(C6_close_twice (bytes "a") idle [Call.SendString 220 (bytes "ready") []] [Call.ReadAllAsString] rfl
      (by simp [Call.isClose]) (by simp [Call.isClose])).2.2.1,
   (C6_close_twice (bytes "a") idle [Call.SendString 220 (bytes "ready") []] [Call.ReadAllAsString] rfl
      (by simp [Call.isClose]) (by simp [Call.isClose])).2.2.2.2.2.1,
   (C6_close_twice (bytes "a") idle [Call.SendString 220 (bytes "ready") []] [Call.ReadAllAsString] rfl
      (by simp [Call.isClose]) (by simp [Call.isClose])).2.2.2.2.2.2.2⟩

/-- C7 (as amended): in every state reached from `NewClient(name, conn)` by
`ReadAllAsString`, `SendString` and `Close` calls, `Closed` is true exactly when
the last `ReadAllAsString` that returned an error returned `io.EOF` (and false
when none returned an error); `Close` and `SendString` never change `Closed`,
which therefore does not follow the release of the handle. -/
theorem C7_closed_flag (name : Str) (conn : Option Conn) (calls : List Call) :
    ((NewClient name conn).run calls).Closed =
        (match ((NewClient name conn).readErrors calls).getLast? with
          | some e => decide (e = Fault.EOF)
          | none => false) ∧
    (∀ c : Client, c.Close.1.Closed = c.Closed) ∧
    (∀ (c : Client) (code : Int) (format : Str) (args : List Arg),
      (c.SendString code format args).1.Closed = c.Closed) := by
  refine ⟨?_, ?_, ?_⟩
  · rw [run_closed]
    cases conn <;> rfl
  · intro c
    have := call_closed c Call.Close
    simpa [Client.call, Client.readErrors] using this
  · intro c code format args
    have := call_closed c (Call.SendString code format args)
    simpa [Client.call, Client.readErrors] using this

/-- C7, counterexample: after `Close` on a fresh client the handle is released
and `Closed` is false; after a read that meets the end of the stream `Closed`
is true and the handle is still held. -/
theorem C7_counterexample :
    ((NewClient (bytes "a") (some idle)).run [Call.Close]).Closed = false ∧
    ((NewClient (bytes "a") (some idle)).run [Call.Close]).released = true ∧
    ((NewClient (bytes "a") (some idle)).run [Call.ReadAllAsString]).Closed = true ∧
    ((NewClient (bytes "a") (some idle)).run [Call.ReadAllAsString]).released = false := by
  refine ⟨by rfl, by rfl, by rfl, by rfl⟩

/-- C8: `SetRawConnection(nil)` changes nothing, so `NewClient(name, nil)` is a
client with `Closed` false, the given name, an open channel, no connection and
no reader; whatever calls follow, it still has neither, every `ReadAllAsString`
and every `SendString` on it ends in a nil dereference, returning nothing and
writing nothing. -/
theorem C8_absent_handle (name : Str) (calls : List Call) :
    (∀ c : Client, c.SetRawConnection none = c) ∧
    NewClient name none
      = { Closed := false, Channel := Chan.isOpen, Name := name, RawConnection := none, Reader := none } ∧
    ((NewClient name none).run calls).RawConnection = none ∧
    ((NewClient name none).run calls).Reader = none ∧
    ((NewClient name none).run calls).ReadAllAsString
      = ((NewClient name none).run calls, Except.error Panic.nilDereference) ∧
    (∀ (code : Int) (format : Str) (args : List Arg),
      ((NewClient name none).run calls).SendString code format args
        = ((NewClient name none).run calls, Except.error Panic.nilDereference)) := by
  have h := run_keeps_nil calls (NewClient name none) ⟨rfl, rfl⟩
  refine ⟨fun _ => rfl, rfl, h.1, h.2, ?_, ?_⟩
  · simp [Client.ReadAllAsString, h.2]
  · intro code format args
    simp [Client.SendString, h.1]

/-- C9: each formatter returns the colour, the string and `ResetColor` one after
the other.  For `logFormatter`, in whatever order `range` visits the entries of
`logColors`, the colour is `LightPurple` when the string starts with "[INFO",
`LightCyan` when it starts with "[DEBUG", `LightRed` when it starts with
"[ERROR" and `ResetColor` otherwise, and no string starts with two of the
markers.  For `chatFormatter` the colour is `Gold` when the string starts with
"(PM)" and `ResetColor` otherwise. -/
theorem C9_formatters (s : Str) (visit : List (Str × Str)) (hvisit : visit.Perm logColors) :
    logFormatter visit s
      = (if HasPrefix s (bytes "[INFO") then LightPurple
         else if HasPrefix s (bytes "[DEBUG") then LightCyan
         else if HasPrefix s (bytes "[ERROR") then LightRed
         else ResetColor) ++ s ++ ResetColor ∧
    chatFormatter s = (if HasPrefix s (bytes "(PM)") then Gold else ResetColor) ++ s ++ ResetColor ∧
    ¬ (HasPrefix s (bytes "[INFO") = true ∧ HasPrefix s (bytes "[DEBUG") = true) ∧
    ¬ (HasPrefix s (bytes "[INFO") = true ∧ HasPrefix s (bytes "[ERROR") = true) ∧
    ¬ (HasPrefix s (bytes "[DEBUG") = true ∧ HasPrefix s (bytes "[ERROR") = true) := by
  obtain ⟨x1, x2, x3⟩ := logColors_exclusive s
  refine ⟨?_, ?_, x1, x2, x3⟩
  · have hmem : ∀ e, e ∈ visit ↔ e ∈ logColors := fun e => hvisit.mem_iff
    have hcases : ∀ e ∈ visit, e = ((bytes "[INFO"), LightPurple) ∨ e = ((bytes "[DEBUG"), LightCyan)
        ∨ e = ((bytes "[ERROR"), LightRed) := by
      intro e he
      have := (hmem e).1 he
      simpa [logColors] using this
    have hcolor : rangeLogColors s ResetColor visit
        = (if HasPrefix s (bytes "[INFO") then LightPurple
           else if HasPrefix s (bytes "[DEBUG") then LightCyan
           else if HasPrefix s (bytes "[ERROR") then LightRed
           else ResetColor) := by
      by_cases h1 : HasPrefix s (bytes "[INFO") = true
      · rw [if_pos h1]
        apply rangeLogColors_match s _ (bytes "[INFO")
        · exact (hmem _).2 (by simp [logColors])
        · exact h1
        · intro e he hp
          rcases hcases e he with h | h | h
          · rw [h]
          · rw [h] at hp; exact absurd ⟨h1, hp⟩ x1
          · rw [h] at hp; exact absurd ⟨h1, hp⟩ x2
      · rw [if_neg h1]
        by_cases h2 : HasPrefix s (bytes "[DEBUG") = true
        · rw [if_pos h2]
          apply rangeLogColors_match s _ (bytes "[DEBUG")
          · exact (hmem _).2 (by simp [logColors])
          · exact h2
          · intro e he hp
            rcases hcases e he with h | h | h
            · rw [h] at hp; exact absurd hp h1
            · rw [h]
            · rw [h] at hp; exact absurd ⟨h2, hp⟩ x3
        · rw [if_neg h2]
          by_cases h3 : HasPrefix s (bytes "[ERROR") = true
          · rw [if_pos h3]
            apply rangeLogColors_match s _ (bytes "[ERROR")
            · exact (hmem _).2 (by simp [logColors])
            · exact h3
            · intro e he hp
              rcases hcases e he with h | h | h
              · rw [h] at hp; exact absurd hp h1
              · rw [h] at hp; exact absurd hp h2
              · rw [h]
          · rw [if_neg h3]
            apply rangeLogColors_none
            intro e he
            rcases hcases e he with h | h | h
            · rw [h]; exact Bool.eq_false_iff.2 h1
            · rw [h]; exact Bool.eq_false_iff.2 h2
            · rw [h]; exact Bool.eq_false_iff.2 h3
    simp only [logFormatter, hcolor, SprintStrings]
    simp
  · simp only [chatFormatter, SprintStrings]
    simp

/-- C9, witness: with the entries visited in reverse, "[INFO hello" gets
`LightPurple` and "[ERROR world" gets `LightRed`; "(PM) hi" gets `Gold`. -/
theorem C9_formatters_witness :
    logFormatter logColors.reverse (bytes "[INFO hello")
      = LightPurple ++ (bytes "[INFO hello") ++ ResetColor ∧
    logFormatter logColors.reverse (bytes "[ERROR world")
      = LightRed ++ (bytes "[ERROR world") ++ ResetColor ∧
    chatFormatter (bytes "(PM) hi") = Gold ++ (bytes "(PM) hi") ++ ResetColor :=
  ⟨(C9_formatters (bytes "[INFO hello") logColors.reverse (List.reverse_perm _)).1,
   (C9_formatters (bytes "[ERROR world") logColors.reverse (List.reverse_perm _)).1,
   (C9_formatters (bytes "(PM) hi") logColors.reverse (List.reverse_perm _)).2.1⟩

/-- C10 (as amended): for every terminal size with `0 ≤ maxX` and `0 ≤ maxY`
whose `3 * maxY` does not overflow the 64-bit `int`, the five views all get a
rectangle with `x0 < x1` and `y0 < y1` if and only if `maxY ≥ 23`, `maxX ≥ 5`
and `maxX ≠ 6`. -/
theorem C10_layout (maxX maxY : Int) (hx : 0 ≤ maxX) (hxm : maxX ≤ maxInt)
    (hy : 0 ≤ maxY) (hym : 3 * maxY ≤ maxInt) :
    layoutValid maxX maxY = true ↔ (23 ≤ maxY ∧ 5 ≤ maxX ∧ maxX ≠ 6) := by
  unfold maxInt at hxm hym
  have e1 : intMul 3 maxY = 3 * maxY := wrapInt_id _ (by omega) (by omega)
  have e2 : intQuo (3 * maxY) 4 = 3 * maxY / 4 := by
    unfold intQuo
    rw [Int.tdiv_eq_ediv (by omega) (by omega)]
    exact wrapInt_id _ (by omega) (by omega)
  have e3 : intQuo maxX 3 = maxX / 3 := by
    unfold intQuo
    rw [Int.tdiv_eq_ediv hx (by omega)]
    exact wrapInt_id _ (by omega) (by omega)
  have e4 : intQuo maxY 2 = maxY / 2 := by
    unfold intQuo
    rw [Int.tdiv_eq_ediv hy (by omega)]
    exact wrapInt_id _ (by omega) (by omega)
  have e5 : intMul (maxX / 3) 2 = maxX / 3 * 2 := wrapInt_id _ (by omega) (by omega)
  have e6 : ∀ k : Int, -4 ≤ k → k ≤ 4 → intAdd (maxX / 3 * 2) k = maxX / 3 * 2 + k :=
    fun k h1 h2 => wrapInt_id _ (by omega) (by omega)
  have e7 : ∀ k : Int, 0 ≤ k → k ≤ 4 → intSub (3 * maxY / 4) k = 3 * maxY / 4 - k :=
    fun k h1 h2 => wrapInt_id _ (by omega) (by omega)
  have e8 : intSub maxX 1 = maxX - 1 := wrapInt_id _ (by omega) (by omega)
  have e9 : intSub maxY 1 = maxY - 1 := wrapInt_id _ (by omega) (by omega)
  have e10 : intAdd (maxY / 2) 1 = maxY / 2 + 1 := wrapInt_id _ (by omega) (by omega)
  simp only [layoutValid, views, List.all_cons, List.all_nil, ViewDetails.validRect,
    Bool.and_true, Bool.and_eq_true, decide_eq_true_eq]
  simp only [e1, e2, e3, e4, e5, e6 1 (by omega) (by omega), e7 3 (by omega) (by omega),
    e7 1 (by omega) (by omega), e7 4 (by omega) (by omega), e8, e9, e10]
  obtain ⟨k, r, hk, hr0, hr4⟩ : ∃ k r : Int, maxY = 4 * k + r ∧ 0 ≤ r ∧ r < 4 :=
    ⟨maxY / 4, maxY % 4, by omega, by omega, by omega⟩
  obtain ⟨j, t, hj, ht0, ht3⟩ : ∃ j t : Int, maxX = 3 * j + t ∧ 0 ≤ t ∧ t < 3 :=
    ⟨maxX / 3, maxX % 3, by omega, by omega, by omega⟩
  subst hk hj
  interval_cases r <;> interval_cases t <;> omega

/-- C10, witness: a terminal of 80 columns and 24 rows. -/
theorem C10_layout_witness : layoutValid 80 24 = true ↔ ((23 : Int) ≤ 24 ∧ (5 : Int) ≤ 80 ∧ (80 : Int) ≠ 6) :=
  C10_layout 80 24 (by decide) (by decide) (by decide) (by decide)

/-- C10, counterexample: for 80 columns and 2^62 rows, non-negative sizes that
fit an `int` with `maxY ≥ 23`, `maxX ≥ 5` and `maxX ≠ 6`, the product `3 * maxY`
wraps around, and the views do not all get a valid rectangle. -/
theorem C10_counterexample :
    (0 : Int) ≤ 4611686018427387904 ∧ (4611686018427387904 : Int) ≤ maxInt ∧
    ¬ (layoutValid 80 4611686018427387904 = true
        ↔ ((23 : Int) ≤ 4611686018427387904 ∧ (5 : Int) ≤ 80 ∧ (80 : Int) ≠ 6)) := by
  refine ⟨by decide, by decide, ?_⟩
  intro h
  have h2 : layoutValid 80 4611686018427387904 = false := by decide
  rw [h2] at h
  exact absurd (h.2 (by decide)) (by decide)

end GoComm
